import Mathlib

/-!
Shallow embedding of `src/sentry/sentry_metrics/indexer/base.py`.

Python strings are modelled as `List Char`, Python `int` as `Int`,
Python `dict` as insertion-ordered association lists with no duplicate
keys (`Dict`), and Python `set` as lists with no duplicates (`PSet`).
Operations that can raise are modelled with `Option` (`none` = the
call raises).  The only method with an observable side effect on its
receiver that the claims need is `KeyResults.get_unmapped_keys`
(defaultdict auto-vivification), which is therefore modelled in
state-passing style, returning the new receiver state alongside its
result.
-/

set_option linter.unusedVariables false

namespace Indexer

/-- A Python string: a finite sequence of characters. -/
abbrev PyStr := List Char

/-- View a Lean string literal as a Python string. -/
def pstr (s : String) : PyStr := s.data

/-- The character of a decimal digit (`0 ≤ d ≤ 9`). -/
def digitChar (d : Nat) : Char := Char.ofNat (48 + d)

/-- Numeric value of a decimal digit character. -/
def digitVal (c : Char) : Nat := c.toNat - 48

/-- Decimal rendering of a natural number, most significant digit first
(model of Python `str` on a non-negative `int`). -/
def natRepr (n : Nat) : PyStr :=
  if n = 0 then ['0'] else (Nat.digits 10 n).reverse.map digitChar

/-- Model of Python `str` on an `int`: an optional minus sign followed by
the decimal digits. -/
def pyIntRepr (n : Int) : PyStr :=
  if n < 0 then '-' :: natRepr n.natAbs else natRepr n.natAbs

/-- Value of a most-significant-digit-first digit string. -/
def digitsVal (s : PyStr) : Nat := s.foldl (fun a c => 10 * a + digitVal c) 0

/-- Parse a non-empty, all-digit string as a natural number. -/
def parseDigits (s : PyStr) : Option Nat :=
  if s ≠ [] ∧ s.all Char.isDigit then some (digitsVal s) else none

/-- Model of Python `int(...)` applied to a string: an optional sign
followed by decimal digits (`none` = `ValueError`).  Python also accepts
surrounding whitespace and underscore separators, which no claim
exercises; on sign-and-digits strings the model agrees with `int`. -/
def pyParseInt (s : PyStr) : Option Int :=
  match s with
  | [] => none
  | c :: rest =>
    if c = '-' then (parseDigits rest).map (fun n => -(n : Int))
    else if c = '+' then (parseDigits rest).map (fun n => (n : Int))
    else (parseDigits (c :: rest)).map (fun n => (n : Int))

/-- Split at the first colon: `some (before, after)` when the string
contains a colon, `none` otherwise. -/
def splitOnceColon : PyStr → Option (PyStr × PyStr)
  | [] => none
  | c :: rest =>
    if c = ':' then some ([], rest)
    else (splitOnceColon rest).map (fun p => (c :: p.1, p.2))

/-- Model of Python `key.split(":", 1)`: a list of one part (no colon
present) or two parts (split at the first colon). -/
def pySplitMax1 (s : PyStr) : List PyStr :=
  match splitOnceColon s with
  | none => [s]
  | some p => [p.1, p.2]

/-- Model of the f-string `f"{org_id}:{string}"`. -/
def renderKey (org : Int) (s : PyStr) : PyStr := pyIntRepr org ++ ':' :: s

/-- A Python `dict`: an insertion-ordered association list with no
duplicated keys. -/
structure Dict (K V : Type) where
  entries : List (K × V)
  nodup : (entries.map Prod.fst).Nodup

/-- The empty dict. -/
def Dict.empty {K V : Type} : Dict K V := ⟨[], List.nodup_nil⟩

/-- `d[k] = v` on the underlying entry list: replace the binding in
place when the key is present, append it otherwise. -/
def setEntries {K V : Type} [DecidableEq K] : List (K × V) → K → V → List (K × V)
  | [], k, v => [(k, v)]
  | e :: rest, k, v => if e.1 = k then (k, v) :: rest else e :: setEntries rest k v

/-- `d.get(k)` on the underlying entry list. -/
def getEntries {K V : Type} [DecidableEq K] : List (K × V) → K → Option V
  | [], _ => none
  | e :: rest, k => if e.1 = k then some e.2 else getEntries rest k

/-- Model of Python `d[k] = v`. -/
def Dict.set {K V : Type} [DecidableEq K] (d : Dict K V) (k : K) (v : V) : Dict K V :=
  ⟨setEntries d.entries k v, by
    have keysEq : ∀ (l : List (K × V)), (setEntries l k v).map Prod.fst =
        if k ∈ l.map Prod.fst then l.map Prod.fst else l.map Prod.fst ++ [k] := by
      intro l
      induction l with
      | nil => simp [setEntries]
      | cons e rest ih =>
        by_cases he : e.1 = k
        · simp [setEntries, he]
        · have hek : ¬k = e.1 := fun h => he h.symm
          have hk : (k ∈ (e :: rest).map Prod.fst) = (k ∈ rest.map Prod.fst) := by
            simp only [List.map_cons, List.mem_cons]
            apply propext
            constructor
            · rintro (h | h)
              · exact absurd h hek
              · exact h
            · exact Or.inr
          simp only [setEntries, if_neg he, List.map_cons, ih, hk]
          by_cases hmem : k ∈ rest.map Prod.fst
          · simp [hmem, hek]
          · simp [hmem, hek]
    rw [keysEq]
    by_cases hmem : k ∈ d.entries.map Prod.fst
    · rw [if_pos hmem]; exact d.nodup
    · rw [if_neg hmem]
      rw [List.nodup_append]
      exact ⟨d.nodup, List.nodup_singleton k, by simpa using hmem⟩⟩

/-- Model of Python `d.get(k)` (also of `d[k]` where the claims need the
read, with `none` marking "absent"). -/
def Dict.get? {K V : Type} [DecidableEq K] (d : Dict K V) (k : K) : Option V :=
  getEntries d.entries k

/-- Model of Python `d.update(o)`: write every binding of `o` into `d`,
in `o`'s iteration order. -/
def Dict.update {K V : Type} [DecidableEq K] (d o : Dict K V) : Dict K V :=
  o.entries.foldl (fun acc kv => acc.set kv.1 kv.2) d

/-- Keys of a dict, in insertion order. -/
def Dict.keys {K V : Type} (d : Dict K V) : List K := d.entries.map Prod.fst

/-- Model of a filtering dict comprehension `{k: v for k, v in d.items() if p k v}`. -/
def Dict.filter {K V : Type} (p : K → V → Bool) (d : Dict K V) : Dict K V :=
  ⟨d.entries.filter (fun kv => p kv.1 kv.2), by
    exact ((List.filter_sublist d.entries).map Prod.fst).nodup d.nodup⟩

/-- Model of a dict comprehension `{k: f(k) for k in ks}` over a
duplicate-free key sequence. -/
def Dict.ofKeysFn {K V : Type} (ks : List K) (h : ks.Nodup) (f : K → V) : Dict K V :=
  ⟨ks.map (fun k => (k, f k)), by
    have comp : (ks.map (fun k => (k, f k))).map Prod.fst = ks := by
      rw [List.map_map]
      exact List.map_id ks
    rw [comp]; exact h⟩

/-- Two-level lookup in a dict of dicts: the id recorded for
`(k, k')`, `none` when either level is absent. -/
def lookup2 {K K' V : Type} [DecidableEq K] [DecidableEq K']
    (d : Dict K (Dict K' V)) (k : K) (k' : K') : Option V :=
  (d.get? k).bind (fun inner => inner.get? k')

/-- A Python `set`: a finite collection without duplicates. -/
structure PSet (A : Type) where
  elems : List A
  nodup : elems.Nodup

/-- The empty set. -/
def PSet.empty {A : Type} : PSet A := ⟨[], List.nodup_nil⟩

/-- Model of Python `s.add(a)`. -/
def PSet.add {A : Type} [DecidableEq A] (s : PSet A) (a : A) : PSet A :=
  if h : a ∈ s.elems then s
  else ⟨s.elems ++ [a], by
    simp [List.nodup_append]
    exact ⟨s.nodup, h⟩⟩

/-- `class FetchType(Enum)`: provenance of a resolution. -/
inductive FetchType : Type
  | CACHE_HIT
  | HARDCODED
  | DB_READ
  | FIRST_SEEN
  | RATE_LIMITED
deriving DecidableEq

/-- `class FetchTypeExt(NamedTuple)`. -/
structure FetchTypeExt where
  is_global : Bool
deriving DecidableEq

/-- `OrgId = int`. -/
abbrev OrgId := Int

/-- `UseCaseId = str`. -/
abbrev UseCaseId := PyStr

/-- `class Metadata(NamedTuple)`. -/
structure Metadata where
  id : Option Int
  fetch_type : FetchType
  fetch_type_ext : Option FetchTypeExt
deriving DecidableEq

/-- `@dataclass(frozen=True) class KeyResult`. -/
structure KeyResult where
  org_id : OrgId
  string : PyStr
  id : Option Int
deriving DecidableEq

/-- `KeyResult.from_string(key, id)`: unpack `key.split(":", 1)` into
`org_id, string` (two names, so it raises unless the split yields
exactly two parts), then apply `int` to the org segment.  `none`
models a raised `ValueError`. -/
def KeyResult.from_string (key : PyStr) (id : Int) : Option KeyResult :=
  match pySplitMax1 key with
  | [org_id, string] => (pyParseInt org_id).map (fun org => ⟨org, string, some id⟩)
  | _ => none

/-- `@dataclass(frozen=True) class UseCaseKeyResult`. -/
structure UseCaseKeyResult where
  use_case_id : UseCaseId
  org_id : OrgId
  string : PyStr
  id : Option Int
deriving DecidableEq

/-- `UseCaseKeyResult.from_string(key, id)`: unpack `key.split(":", 1)`
into the three names `use_case_id, org_id, string` (it raises unless the
split yields exactly three parts — but a maxsplit-1 split yields at most
two), then apply `int` to the org segment. -/
def UseCaseKeyResult.from_string (key : PyStr) (id : Int) : Option UseCaseKeyResult :=
  match pySplitMax1 key with
  | [use_case_id, org_id, string] =>
    (pyParseInt org_id).map (fun org => ⟨use_case_id, org, string, some id⟩)
  | _ => none

/-- `class KeyCollection`: the constructor stores the mapping and
precomputes `size = self._size()`, the sum of the per-org set sizes. -/
structure KeyCollection where
  mapping : Dict OrgId (PSet PyStr)
  size : Nat

/-- `KeyCollection.__init__(mapping)`. -/
def KeyCollection.ofMapping (m : Dict OrgId (PSet PyStr)) : KeyCollection :=
  ⟨m, m.entries.foldl (fun total_size kv => total_size + kv.2.elems.length) 0⟩

/-- `KeyCollection.as_tuples()`: every `(org_id, string)` pair, org by
org. -/
def KeyCollection.as_tuples (c : KeyCollection) : List (OrgId × PyStr) :=
  c.mapping.entries.flatMap (fun kv => kv.2.elems.map (fun s => (kv.1, s)))

/-- `KeyCollection.as_strings()`: every key rendered as
`f"{org_id}:{string}"`. -/
def KeyCollection.as_strings (c : KeyCollection) : List PyStr :=
  c.mapping.entries.flatMap (fun kv => kv.2.elems.map (fun s => renderKey kv.1 s))

/-- `class KeyResults`: two parallel defaultdict-of-dict mappings. -/
structure KeyResults where
  results : Dict OrgId (Dict PyStr (Option Int))
  meta : Dict OrgId (Dict PyStr Metadata)

/-- `KeyResults.__init__()`. -/
def KeyResults.empty : KeyResults := ⟨Dict.empty, Dict.empty⟩

/-- `KeyResults.add_key_result(key_result, fetch_type, fetch_type_ext)`:
`self.results[org].update({string: id})` always (the defaultdict read
vivifies the inner dict when absent), and `self.meta[org][string] =
Metadata(...)` only when `fetch_type` is truthy. -/
def KeyResults.add_key_result (r : KeyResults) (key_result : KeyResult)
    (fetch_type : Option FetchType)
    (fetch_type_ext : Option FetchTypeExt) : KeyResults :=
  let inner := (r.results.get? key_result.org_id).getD Dict.empty
  let results := r.results.set key_result.org_id (inner.set key_result.string key_result.id)
  match fetch_type with
  | none => { r with results := results }
  | some ft =>
    let minner := (r.meta.get? key_result.org_id).getD Dict.empty
    { results := results,
      meta := r.meta.set key_result.org_id
        (minner.set key_result.string ⟨key_result.id, ft, fetch_type_ext⟩) }

/-- `KeyResults.get_mapped_results()`:
`{k: v for k, v in self.results.items() if len(v) > 0}`. -/
def KeyResults.get_mapped_results (r : KeyResults) : Dict OrgId (Dict PyStr (Option Int)) :=
  r.results.filter (fun _ v => 0 < v.entries.length)

/-- Truthiness of `self.results[org_id].get(string)`: falsy when the
string is absent, recorded as `None`, or recorded as `0`. -/
def pyFalsy (v : Option (Option Int)) : Bool :=
  match v with
  | none => true
  | some none => true
  | some (some i) => i == 0

/-- One org of `KeyResults.get_unmapped_keys`: fold the inner
`for string in strings` loop.  The state pair carries the
`unmapped_org_strings` accumulator (a `defaultdict(set)`) and the
receiver's `results` mapping, on which the read
`self.results[org_id]` vivifies an empty inner dict when absent. -/
def unmappedStep (org : OrgId) (strings : List PyStr)
    (st : Dict OrgId (PSet PyStr) × Dict OrgId (Dict PyStr (Option Int))) :
    Dict OrgId (PSet PyStr) × Dict OrgId (Dict PyStr (Option Int)) :=
  strings.foldl
    (fun st2 s =>
      let inner := (st2.2.get? org).getD Dict.empty
      let res2 := st2.2.set org inner
      if pyFalsy (inner.get? s) then
        (st2.1.set org (((st2.1.get? org).getD PSet.empty).add s), res2)
      else (st2.1, res2))
    st

/-- `KeyResults.get_unmapped_keys(keys)`: returns the `KeyCollection` of
keys whose recorded id is falsy, together with the state the receiver is
left in (its defaultdict `results` acquires an empty inner dict for every
org it was indexed with while absent). -/
def KeyResults.get_unmapped_keys (r : KeyResults) (keys : KeyCollection) :
    KeyCollection × KeyResults :=
  let st := keys.mapping.entries.foldl
    (fun st kv => unmappedStep kv.1 kv.2.elems st)
    (Dict.empty, r.results)
  (KeyCollection.ofMapping st.1, { r with results := st.2 })

/-- `KeyResults.get_mapped_key_strings_to_ints()`: flat
`f"{org_id}:{string}" -> id` export of the non-`None` entries. -/
def KeyResults.get_mapped_key_strings_to_ints (r : KeyResults) : Dict PyStr Int :=
  r.results.entries.foldl
    (fun acc kv =>
      kv.2.entries.foldl
        (fun acc2 sv =>
          match sv.2 with
          | some i => acc2.set (renderKey kv.1 sv.1) i
          | none => acc2)
        acc)
    Dict.empty

/-- The write loops of `KeyResults.merge`: for each `(org_id, strings)`
pair in sequence, `new.results[org_id].update(strings)` (defaultdict
read vivifies, then `dict.update`). -/
def mergeWrites {K K' V : Type} [DecidableEq K] [DecidableEq K']
    (l : List (K × Dict K' V)) (acc : Dict K (Dict K' V)) : Dict K (Dict K' V) :=
  l.foldl (fun acc kv => acc.set kv.1 (((acc.get? kv.1).getD Dict.empty).update kv.2)) acc

/-- `KeyResults.merge(other)`: results written from
`[*other.results.items(), *self.results.items()]` (self last, so self
wins per key), meta written from `self.meta` then `other.meta` (other
last, so other wins per key), into a fresh `KeyResults`. -/
def KeyResults.merge (self other : KeyResults) : KeyResults :=
  ⟨mergeWrites (other.results.entries ++ self.results.entries) Dict.empty,
   mergeWrites (self.meta.entries ++ other.meta.entries) Dict.empty⟩

/-- `class UseCaseKeyResults`: per-use-case `KeyResults`. -/
structure UseCaseKeyResults where
  results : Dict UseCaseId KeyResults

/-- `UseCaseKeyResults.__init__()`. -/
def UseCaseKeyResults.empty : UseCaseKeyResults := ⟨Dict.empty⟩

/-- The local function `merge_use_case` of `UseCaseKeyResults.merge`. -/
def mergeUseCase (self other : UseCaseKeyResults) (use_case_id : UseCaseId) : KeyResults :=
  match self.results.get? use_case_id, other.results.get? use_case_id with
  | some a, some b => a.merge b
  | some a, none => a
  | none, ob => ob.getD KeyResults.empty

/-- `UseCaseKeyResults.merge(other)`: a dict comprehension over
`set(self.results.keys()) | set(other.results.keys())` applying
`merge_use_case`.  The union is iterated in an arbitrary order in
Python; the model lists self's keys then other's new keys. -/
def UseCaseKeyResults.merge (self other : UseCaseKeyResults) : UseCaseKeyResults :=
  ⟨Dict.ofKeysFn
    (self.results.keys ++ other.results.keys.filter (fun k => !(self.results.keys.contains k)))
    (by
      rw [List.nodup_append]
      refine ⟨self.results.nodup, (List.filter_sublist _).nodup other.results.nodup, ?_⟩
      intro a ha hb
      have := List.of_mem_filter hb
      simp at this
      exact this ha)
    (fun use_case_id => mergeUseCase self other use_case_id)⟩

/-- `UseCaseKeyResults.get_mapped_strings_to_ints()`: the dict
comprehension `{f"{use_case_id}:{string}": id for use_case_id,
key_results in self.results.items() for string, id in
key_results.get_mapped_key_strings_to_ints().items()}`. -/
def UseCaseKeyResults.get_mapped_strings_to_ints (u : UseCaseKeyResults) : Dict PyStr Int :=
  u.results.entries.foldl
    (fun acc ukv =>
      (ukv.2.get_mapped_key_strings_to_ints).entries.foldl
        (fun acc2 kv => acc2.set (ukv.1 ++ ':' :: kv.1) kv.2)
        acc)
    Dict.empty

/-- The value left at key `k` after a sequence of writes, `none` when no
write touches `k` (the last write wins, as for `d[k] = v` in sequence). -/
def lastWrite {K V : Type} [DecidableEq K] (l : List (K × V)) (k : K) : Option V :=
  l.foldl (fun r kv => if kv.1 = k then some kv.2 else r) none

/-- The id that the write loops of `KeyResults.merge` leave at
`(k, k')`: the last listed org entry containing `k'` wins. -/
def listLook {K K' V : Type} [DecidableEq K] [DecidableEq K']
    (l : List (K × Dict K' V)) (k : K) (k' : K') : Option V :=
  l.foldl (fun r kv => if kv.1 = k then (kv.2.get? k').or r else r) none

/-- The flat `(cache key, id)` write sequence performed by
`KeyResults.get_mapped_key_strings_to_ints`. -/
def writesList (r : KeyResults) : List (PyStr × Int) :=
  r.results.entries.flatMap
    (fun kv => kv.2.entries.filterMap
      (fun sv => sv.2.map (fun i => (renderKey kv.1 sv.1, i))))

/-- The flat `(cache key, id)` write sequence performed by
`UseCaseKeyResults.get_mapped_strings_to_ints`. -/
def ucWritesList (u : UseCaseKeyResults) : List (PyStr × Int) :=
  u.results.entries.flatMap
    (fun ukv => (ukv.2.get_mapped_key_strings_to_ints).entries.map
      (fun kv => (ukv.1 ++ ':' :: kv.1, kv.2)))

/-- Whether iterating `get_unmapped_keys` over this mapping indexes the
defaultdict at `org`: true exactly when `org` is present with at least
one string. -/
def vivifyFlag (m : Dict OrgId (PSet PyStr)) (org : OrgId) : Bool :=
  match m.get? org with
  | some t => !t.elems.isEmpty
  | none => false

/-- The key `(org, s)` is one of the keys of the collection. -/
def collMem (c : KeyCollection) (org : OrgId) (s : PyStr) : Prop :=
  ∃ t, c.mapping.get? org = some t ∧ s ∈ t.elems

/-! ### Lemmas about the dict and set models -/

theorem getEntries_eq_none {K V : Type} [DecidableEq K] {l : List (K × V)} {k : K} :
    getEntries l k = none ↔ k ∉ l.map Prod.fst := by
  induction l with
  | nil => simp [getEntries]
  | cons e rest ih =>
    by_cases he : e.1 = k
    · simp [getEntries, he]
    · simp [getEntries, he, ih, Ne.symm he]

theorem getEntries_eq_some_iff {K V : Type} [DecidableEq K] {l : List (K × V)}
    (h : (l.map Prod.fst).Nodup) (k : K) (v : V) :
    getEntries l k = some v ↔ (k, v) ∈ l := by
  induction l with
  | nil => simp [getEntries]
  | cons e rest ih =>
    rw [List.map_cons, List.nodup_cons] at h
    by_cases he : e.1 = k
    · rw [getEntries, if_pos he, List.mem_cons]
      constructor
      · intro hv
        have hv' : v = e.2 := (Option.some_injective _ hv.symm)
        subst hv'
        subst he
        exact Or.inl rfl
      · rintro (hv | hv)
        · rw [← hv]
        · exact absurd (List.mem_map_of_mem Prod.fst hv) (by rw [← he]; exact h.1)
    · rw [getEntries, if_neg he, List.mem_cons, ih h.2]
      constructor
      · exact Or.inr
      · rintro (hv | hv)
        · exact absurd (congrArg Prod.fst hv).symm he
        · exact hv

theorem getEntries_setEntries {K V : Type} [DecidableEq K]
    (l : List (K × V)) (k : K) (v : V) (a : K) :
    getEntries (setEntries l k v) a = if a = k then some v else getEntries l a := by
  induction l with
  | nil =>
    by_cases h : a = k
    · subst h; simp [setEntries, getEntries]
    · simp [setEntries, getEntries, h, Ne.symm h]
  | cons e rest ih =>
    by_cases he : e.1 = k
    · subst he
      by_cases ha : a = e.1
      · subst ha; simp [setEntries, getEntries]
      · simp [setEntries, getEntries, ha, Ne.symm ha]
    · by_cases hea : e.1 = a
      · subst hea
        simp [setEntries, getEntries, he, Ne.symm he]
      · simp [setEntries, getEntries, he, hea, ih]

theorem Dict.get?_set {K V : Type} [DecidableEq K] (d : Dict K V) (k : K) (v : V) (a : K) :
    (d.set k v).get? a = if a = k then some v else d.get? a :=
  getEntries_setEntries d.entries k v a

theorem Dict.get?_empty {K V : Type} [DecidableEq K] (k : K) :
    (Dict.empty : Dict K V).get? k = none := rfl

theorem foldl_or_init {α V : Type} (g : Option V → α → Option V)
    (hg : ∀ r x, g r x = (g none x).or r) :
    ∀ (l : List α) (r : Option V), l.foldl g r = (l.foldl g none).or r := by
  intro l
  induction l with
  | nil => intro r; simp
  | cons x xs ih =>
    intro r
    show xs.foldl g (g r x) = (xs.foldl g (g none x)).or r
    rw [ih (g r x), ih (g none x), hg r x, Option.or_assoc]

theorem lastWrite_or_init {K V : Type} [DecidableEq K] (k : K) :
    ∀ (r : Option V) (x : K × V),
      (if x.1 = k then some x.2 else r) = (if x.1 = k then some x.2 else none).or r := by
  intro r x
  by_cases h : x.1 = k <;> simp [h]

theorem lastWrite_cons {K V : Type} [DecidableEq K] (e : K × V) (l : List (K × V)) (k : K) :
    lastWrite (e :: l) k = (lastWrite l k).or (if e.1 = k then some e.2 else none) := by
  show l.foldl (fun r kv => if kv.1 = k then some kv.2 else r)
      (if e.1 = k then some e.2 else none) = _
  exact foldl_or_init _ (lastWrite_or_init k) l _

theorem lastWrite_append {K V : Type} [DecidableEq K] (a b : List (K × V)) (k : K) :
    lastWrite (a ++ b) k = (lastWrite b k).or (lastWrite a k) := by
  show (a ++ b).foldl (fun r kv => if kv.1 = k then some kv.2 else r) none = _
  rw [List.foldl_append]
  exact foldl_or_init _ (lastWrite_or_init k) b _

theorem lastWrite_eq_none {K V : Type} [DecidableEq K] {l : List (K × V)} {k : K}
    (h : k ∉ l.map Prod.fst) : lastWrite l k = none := by
  induction l with
  | nil => rfl
  | cons e rest ih =>
    rw [List.map_cons, List.mem_cons] at h
    push_neg at h
    rw [lastWrite_cons, ih h.2, if_neg (fun g => h.1 g.symm)]
    rfl

theorem lastWrite_mem {K V : Type} [DecidableEq K] {l : List (K × V)} {k : K} {v : V}
    (h : lastWrite l k = some v) : (k, v) ∈ l := by
  induction l with
  | nil => exact absurd h (by simp [lastWrite])
  | cons e rest ih =>
    rw [lastWrite_cons] at h
    cases hr : lastWrite rest k with
    | some w =>
      rw [hr] at h
      have h2 : some w = some v := h
      exact List.mem_cons_of_mem e (ih (hr.trans h2))
    | none =>
      rw [hr, Option.none_or] at h
      by_cases he : e.1 = k
      · rw [if_pos he] at h
        have hv : v = e.2 := (Option.some_injective _ h.symm)
        subst hv
        subst he
        exact List.mem_cons_self e rest
      · rw [if_neg he] at h
        exact absurd h (by simp)

theorem lastWrite_nodup {K V : Type} [DecidableEq K] {l : List (K × V)}
    (h : (l.map Prod.fst).Nodup) (k : K) :
    lastWrite l k = getEntries l k := by
  induction l with
  | nil => rfl
  | cons e rest ih =>
    rw [List.map_cons, List.nodup_cons] at h
    rw [lastWrite_cons]
    by_cases he : e.1 = k
    · have hk : k ∉ rest.map Prod.fst := by rw [← he]; exact h.1
      rw [if_pos he, lastWrite_eq_none hk, Option.none_or]
      simp [getEntries, he]
    · rw [if_neg he, Option.or_none, ih h.2]
      simp [getEntries, he]

theorem foldl_set_get? {K V : Type} [DecidableEq K] :
    ∀ (l : List (K × V)) (acc : Dict K V) (k : K),
      ((l.foldl (fun acc kv => acc.set kv.1 kv.2) acc).get? k) =
        (lastWrite l k).or (acc.get? k) := by
  intro l
  induction l with
  | nil => intro acc k; simp [lastWrite]
  | cons e rest ih =>
    intro acc k
    show Dict.get? (rest.foldl (fun acc kv => acc.set kv.1 kv.2) (acc.set e.1 e.2)) k = _
    rw [ih, lastWrite_cons, Option.or_assoc, Dict.get?_set]
    congr 1
    by_cases h : e.1 = k
    · simp [h]
    · simp [h, Ne.symm h]

theorem Dict.get?_update {K V : Type} [DecidableEq K] (d o : Dict K V) (k : K) :
    (d.update o).get? k = (o.get? k).or (d.get? k) := by
  show Dict.get? (o.entries.foldl (fun acc kv => acc.set kv.1 kv.2) d) k = _
  rw [foldl_set_get? o.entries d k, lastWrite_nodup o.nodup]
  rfl

theorem getEntries_filter {K V : Type} [DecidableEq K] (p : K → V → Bool) :
    ∀ (l : List (K × V)), (l.map Prod.fst).Nodup → ∀ (k : K),
      getEntries (l.filter (fun kv => p kv.1 kv.2)) k =
        match getEntries l k with
        | some v => if p k v then some v else none
        | none => none := by
  intro l
  induction l with
  | nil => intro _ k; simp [getEntries]
  | cons e rest ih =>
    intro h k
    rw [List.map_cons, List.nodup_cons] at h
    by_cases hq : p e.1 e.2
    · rw [List.filter_cons_of_pos (by simpa using hq)]
      by_cases he : e.1 = k
      · simp [getEntries, he, he ▸ hq]
      · simp only [getEntries, if_neg he]
        exact ih h.2 k
    · rw [List.filter_cons_of_neg (by simpa using hq)]
      by_cases he : e.1 = k
      · have hk : k ∉ (rest.filter (fun kv => p kv.1 kv.2)).map Prod.fst := by
          intro hmem
          apply h.1
          rw [he]
          have : (rest.filter (fun kv => p kv.1 kv.2)).Sublist rest := List.filter_sublist rest
          exact (this.map Prod.fst).mem hmem
        rw [getEntries_eq_none.mpr hk]
        simp [getEntries, he, he ▸ hq]
      · rw [ih h.2 k]
        simp [getEntries, he]

theorem Dict.get?_filter {K V : Type} [DecidableEq K] (p : K → V → Bool) (d : Dict K V) (k : K) :
    (Dict.filter p d).get? k =
      match d.get? k with
      | some v => if p k v then some v else none
      | none => none :=
  getEntries_filter p d.entries d.nodup k

theorem getEntries_map_pair {K V : Type} [DecidableEq K] (f : K → V) :
    ∀ (ks : List K) (a : K),
      getEntries (ks.map (fun k => (k, f k))) a = if a ∈ ks then some (f a) else none := by
  intro ks
  induction ks with
  | nil => intro a; simp [getEntries]
  | cons x xs ih =>
    intro a
    by_cases hx : x = a
    · simp [getEntries, hx]
    · simp [getEntries, hx, Ne.symm hx, ih]

theorem Dict.get?_ofKeysFn {K V : Type} [DecidableEq K]
    (ks : List K) (h : ks.Nodup) (f : K → V) (a : K) :
    (Dict.ofKeysFn ks h f).get? a = if a ∈ ks then some (f a) else none :=
  getEntries_map_pair f ks a

theorem Dict.get?_eq_some_iff {K V : Type} [DecidableEq K] (d : Dict K V) (k : K) (v : V) :
    d.get? k = some v ↔ (k, v) ∈ d.entries :=
  getEntries_eq_some_iff d.nodup k v

theorem Dict.get?_eq_none_iff {K V : Type} [DecidableEq K] (d : Dict K V) (k : K) :
    d.get? k = none ↔ k ∉ d.keys :=
  getEntries_eq_none

theorem Dict.mem_keys_iff {K V : Type} [DecidableEq K] (d : Dict K V) (k : K) :
    k ∈ d.keys ↔ (d.get? k).isSome = true := by
  rw [← Option.ne_none_iff_isSome]
  constructor
  · intro h hn
    exact (Dict.get?_eq_none_iff d k).mp hn h
  · intro h
    by_contra hmem
    exact h ((Dict.get?_eq_none_iff d k).mpr hmem)

theorem listLook_or_init {K K' V : Type} [DecidableEq K] [DecidableEq K'] (k : K) (k' : K') :
    ∀ (r : Option V) (x : K × Dict K' V),
      (if x.1 = k then (x.2.get? k').or r else r) =
        (if x.1 = k then (x.2.get? k').or none else none).or r := by
  intro r x
  by_cases h : x.1 = k <;> simp [h, Option.or_assoc]

theorem listLook_cons {K K' V : Type} [DecidableEq K] [DecidableEq K']
    (e : K × Dict K' V) (l : List (K × Dict K' V)) (k : K) (k' : K') :
    listLook (e :: l) k k' =
      (listLook l k k').or (if e.1 = k then (e.2.get? k').or none else none) := by
  show l.foldl (fun r kv => if kv.1 = k then (kv.2.get? k').or r else r)
      (if e.1 = k then (e.2.get? k').or none else none) = _
  exact foldl_or_init _ (listLook_or_init k k') l _

theorem listLook_append {K K' V : Type} [DecidableEq K] [DecidableEq K']
    (a b : List (K × Dict K' V)) (k : K) (k' : K') :
    listLook (a ++ b) k k' = (listLook b k k').or (listLook a k k') := by
  show (a ++ b).foldl (fun r kv => if kv.1 = k then (kv.2.get? k').or r else r) none = _
  rw [List.foldl_append]
  exact foldl_or_init _ (listLook_or_init k k') b _

theorem listLook_eq_none {K K' V : Type} [DecidableEq K] [DecidableEq K']
    {l : List (K × Dict K' V)} {k : K} (k' : K') (h : k ∉ l.map Prod.fst) :
    listLook l k k' = none := by
  induction l with
  | nil => rfl
  | cons e rest ih =>
    rw [List.map_cons, List.mem_cons] at h
    push_neg at h
    rw [listLook_cons, ih h.2, if_neg (fun g => h.1 g.symm)]
    rfl

theorem listLook_nodup {K K' V : Type} [DecidableEq K] [DecidableEq K']
    {l : List (K × Dict K' V)} (h : (l.map Prod.fst).Nodup) (k : K) (k' : K') :
    listLook l k k' = (getEntries l k).bind (fun inner => inner.get? k') := by
  induction l with
  | nil => rfl
  | cons e rest ih =>
    rw [List.map_cons, List.nodup_cons] at h
    rw [listLook_cons]
    by_cases he : e.1 = k
    · have hk : k ∉ rest.map Prod.fst := by rw [← he]; exact h.1
      rw [listLook_eq_none k' hk, Option.none_or]
      simp [getEntries, he]
    · rw [if_neg he, Option.or_none, ih h.2]
      simp [getEntries, he]

theorem listLook_dict {K K' V : Type} [DecidableEq K] [DecidableEq K']
    (d : Dict K (Dict K' V)) (k : K) (k' : K') :
    listLook d.entries k k' = lookup2 d k k' :=
  listLook_nodup d.nodup k k'

theorem mergeWrites_lookup2 {K K' V : Type} [DecidableEq K] [DecidableEq K'] :
    ∀ (l : List (K × Dict K' V)) (acc : Dict K (Dict K' V)) (k : K) (k' : K'),
      lookup2 (mergeWrites l acc) k k' = (listLook l k k').or (lookup2 acc k k') := by
  intro l
  induction l with
  | nil => intro acc k k'; simp [mergeWrites, listLook]
  | cons e rest ih =>
    intro acc k k'
    show lookup2 (mergeWrites rest
      (acc.set e.1 (((acc.get? e.1).getD Dict.empty).update e.2))) k k' = _
    rw [ih, listLook_cons, Option.or_assoc]
    congr 1
    unfold lookup2
    rw [Dict.get?_set]
    by_cases he : e.1 = k
    · have hA : (((acc.get? e.1).getD Dict.empty).get? k') =
          (acc.get? k).bind (fun inner => inner.get? k') := by
        rw [← he]
        cases h : acc.get? e.1 with
        | some d => simp [h]
        | none => simp [h, Dict.get?_empty]
      rw [if_pos he.symm, if_pos he]
      show (((acc.get? e.1).getD Dict.empty).update e.2).get? k' = _
      rw [Dict.get?_update, hA]
      simp
    · rw [if_neg (fun g => he g.symm), if_neg he, Option.none_or]

theorem PSet.mem_add {A : Type} [DecidableEq A] (s : PSet A) (a b : A) :
    b ∈ (s.add a).elems ↔ b ∈ s.elems ∨ b = a := by
  unfold PSet.add
  by_cases h : a ∈ s.elems
  · rw [dif_pos h]
    constructor
    · exact Or.inl
    · rintro (hb | rfl)
      · exact hb
      · exact h
  · rw [dif_neg h]
    simp

/-! ### Lemmas about integer rendering, parsing and colon splitting -/

theorem isDigit_digitChar : ∀ d, d < 10 → (digitChar d).isDigit = true := by decide

theorem digitVal_digitChar : ∀ d, d < 10 → digitVal (digitChar d) = d := by decide

theorem natRepr_digits (n : Nat) : ∀ c ∈ natRepr n, c.isDigit = true := by
  intro c hc
  unfold natRepr at hc
  by_cases h : n = 0
  · rw [if_pos h] at hc
    simp at hc
    subst hc
    decide
  · rw [if_neg h] at hc
    rw [List.mem_map] at hc
    obtain ⟨d, hd, rfl⟩ := hc
    rw [List.mem_reverse] at hd
    exact isDigit_digitChar d (Nat.digits_lt_base (by norm_num) hd)

theorem natRepr_ne_nil (n : Nat) : natRepr n ≠ [] := by
  unfold natRepr
  by_cases h : n = 0
  · rw [if_pos h]; simp
  · rw [if_neg h]
    simp [Nat.digits_ne_nil_iff_ne_zero, h]

theorem foldl_digits_map :
    ∀ (l : List Nat), (∀ d ∈ l, d < 10) → ∀ (A : Nat),
      (l.map digitChar).foldl (fun a c => 10 * a + digitVal c) A =
        l.foldl (fun a d => 10 * a + d) A := by
  intro l
  induction l with
  | nil => intro _ A; rfl
  | cons d ds ih =>
    intro h A
    show (ds.map digitChar).foldl (fun a c => 10 * a + digitVal c) (10 * A + digitVal (digitChar d)) = _
    rw [digitVal_digitChar d (h d (List.mem_cons_self d ds))]
    exact ih (fun x hx => h x (List.mem_cons_of_mem d hx)) (10 * A + d)

theorem foldl_reverse_ofDigits : ∀ (l : List Nat),
    l.reverse.foldl (fun a d => 10 * a + d) 0 = Nat.ofDigits 10 l := by
  intro l
  induction l with
  | nil => rfl
  | cons d ds ih =>
    rw [List.reverse_cons, List.foldl_append, ih, Nat.ofDigits_cons]
    show 10 * Nat.ofDigits 10 ds + d = _
    ring

theorem digitsVal_natRepr (n : Nat) : digitsVal (natRepr n) = n := by
  by_cases h : n = 0
  · subst h; decide
  · unfold natRepr digitsVal
    rw [if_neg h]
    rw [foldl_digits_map (Nat.digits 10 n).reverse
      (fun d hd => Nat.digits_lt_base (by norm_num) (List.mem_reverse.mp hd)) 0]
    rw [foldl_reverse_ofDigits]
    exact Nat.ofDigits_digits 10 n

theorem parseDigits_natRepr (n : Nat) : parseDigits (natRepr n) = some n := by
  unfold parseDigits
  rw [if_pos ⟨natRepr_ne_nil n, List.all_eq_true.mpr (fun c hc => natRepr_digits n c hc)⟩]
  rw [digitsVal_natRepr]

theorem pyParseInt_pyIntRepr (n : Int) : pyParseInt (pyIntRepr n) = some n := by
  unfold pyIntRepr
  by_cases h : n < 0
  · rw [if_pos h]
    show (if '-' = '-' then (parseDigits (natRepr n.natAbs)).map (fun m => -(m : Int))
        else if '-' = '+' then (parseDigits (natRepr n.natAbs)).map (fun m => (m : Int))
        else (parseDigits ('-' :: natRepr n.natAbs)).map (fun m => (m : Int))) = some n
    rw [if_pos rfl, parseDigits_natRepr]
    show some (-(n.natAbs : Int)) = some n
    congr 1
    omega
  · rw [if_neg h]
    obtain ⟨c, t, hct⟩ : ∃ c t, natRepr n.natAbs = c :: t := by
      cases hh : natRepr n.natAbs with
      | nil => exact absurd hh (natRepr_ne_nil _)
      | cons c t => exact ⟨c, t, rfl⟩
    have hcd : c.isDigit = true :=
      natRepr_digits n.natAbs c (by rw [hct]; exact List.mem_cons_self c t)
    have hc1 : ¬c = '-' := by
      intro g; rw [g] at hcd; exact absurd hcd (by decide)
    have hc2 : ¬c = '+' := by
      intro g; rw [g] at hcd; exact absurd hcd (by decide)
    rw [hct]
    show (if c = '-' then (parseDigits t).map (fun m => -(m : Int))
        else if c = '+' then (parseDigits t).map (fun m => (m : Int))
        else (parseDigits (c :: t)).map (fun m => (m : Int))) = some n
    rw [if_neg hc1, if_neg hc2, ← hct, parseDigits_natRepr]
    show some ((n.natAbs : Nat) : Int) = some n
    congr 1
    omega

theorem splitOnceColon_no_colon : ∀ (xs : PyStr), ':' ∉ xs → ∀ (s : PyStr),
    splitOnceColon (xs ++ ':' :: s) = some (xs, s) := by
  intro xs
  induction xs with
  | nil => intro _ s; simp [splitOnceColon]
  | cons c t ih =>
    intro h s
    rw [List.mem_cons] at h
    push_neg at h
    show splitOnceColon (c :: (t ++ ':' :: s)) = _
    unfold splitOnceColon
    rw [if_neg (fun g => h.1 g.symm), ih h.2 s]
    rfl

theorem pyIntRepr_no_colon (n : Int) : ':' ∉ pyIntRepr n := by
  unfold pyIntRepr
  by_cases h : n < 0
  · rw [if_pos h]
    intro hc
    rw [List.mem_cons] at hc
    rcases hc with hc | hc
    · exact absurd hc (by decide)
    · exact absurd (natRepr_digits _ _ hc) (by decide)
  · rw [if_neg h]
    intro hc
    exact absurd (natRepr_digits _ _ hc) (by decide)

theorem splitOnceColon_renderKey (org : Int) (s : PyStr) :
    splitOnceColon (renderKey org s) = some (pyIntRepr org, s) :=
  splitOnceColon_no_colon _ (pyIntRepr_no_colon org) s

/-! ### Lemmas about the get_unmapped_keys fold -/

theorem pyFalsy_inner (st2 : Dict OrgId (Dict PyStr (Option Int))) (org : OrgId) (s : PyStr) :
    pyFalsy (((st2.get? org).getD Dict.empty).get? s) = pyFalsy (lookup2 st2 org s) := by
  cases h : st2.get? org with
  | some d => simp [lookup2, h]
  | none => simp [lookup2, h, Dict.get?_empty]

theorem unmappedStep_get? (org : OrgId) :
    ∀ (ss : List PyStr) (st : Dict OrgId (PSet PyStr) × Dict OrgId (Dict PyStr (Option Int)))
      (a : OrgId),
      (unmappedStep org ss st).2.get? a =
        if a = org ∧ ss ≠ [] ∧ (st.2.get? org).isNone = true then some Dict.empty
        else st.2.get? a := by
  intro ss
  induction ss with
  | nil => intro st a; simp [unmappedStep]
  | cons s rest ih =>
    intro st a
    have hstep : unmappedStep org (s :: rest) st = unmappedStep org rest
        (if pyFalsy (((st.2.get? org).getD Dict.empty).get? s) then
          (st.1.set org (((st.1.get? org).getD PSet.empty).add s),
            st.2.set org ((st.2.get? org).getD Dict.empty))
        else (st.1, st.2.set org ((st.2.get? org).getD Dict.empty))) := rfl
    rw [hstep, ih]
    have hsnd : ∀ (b : OrgId), (if pyFalsy (((st.2.get? org).getD Dict.empty).get? s) then
          (st.1.set org (((st.1.get? org).getD PSet.empty).add s),
            st.2.set org ((st.2.get? org).getD Dict.empty))
        else (st.1, st.2.set org ((st.2.get? org).getD Dict.empty))).2.get? b
          = (st.2.set org ((st.2.get? org).getD Dict.empty)).get? b := by
      intro b
      by_cases hc : pyFalsy (((st.2.get? org).getD Dict.empty).get? s) <;> simp [hc]
    rw [hsnd a, hsnd org]
    have horg : (st.2.set org ((st.2.get? org).getD Dict.empty)).get? org
        = some ((st.2.get? org).getD Dict.empty) := by
      rw [Dict.get?_set]
      exact if_pos rfl
    rw [horg, Dict.get?_set st.2 org _ a]
    by_cases ha : a = org
    · subst ha
      cases hres : st.2.get? a with
      | some d => simp [hres]
      | none => simp [hres]
    · simp [ha]

theorem unmappedStep_lookup2 (org : OrgId) (ss : List PyStr)
    (st : Dict OrgId (PSet PyStr) × Dict OrgId (Dict PyStr (Option Int)))
    (a : OrgId) (b : PyStr) :
    lookup2 (unmappedStep org ss st).2 a b = lookup2 st.2 a b := by
  unfold lookup2
  rw [unmappedStep_get? org ss st a]
  by_cases hc : a = org ∧ ss ≠ [] ∧ (st.2.get? org).isNone = true
  · rw [if_pos hc]
    obtain ⟨ha, _, hn⟩ := hc
    subst ha
    cases hres : st.2.get? a with
    | some d => rw [hres] at hn; simp at hn
    | none => simp [Dict.get?_empty]
  · rw [if_neg hc]

theorem unmappedStep_acc_ne (org : OrgId) :
    ∀ (ss : List PyStr) (st : Dict OrgId (PSet PyStr) × Dict OrgId (Dict PyStr (Option Int)))
      (a : OrgId), ¬a = org →
      (unmappedStep org ss st).1.get? a = st.1.get? a := by
  intro ss
  induction ss with
  | nil => intro st a _; rfl
  | cons s rest ih =>
    intro st a ha
    have hstep : unmappedStep org (s :: rest) st = unmappedStep org rest
        (if pyFalsy (((st.2.get? org).getD Dict.empty).get? s) then
          (st.1.set org (((st.1.get? org).getD PSet.empty).add s),
            st.2.set org ((st.2.get? org).getD Dict.empty))
        else (st.1, st.2.set org ((st.2.get? org).getD Dict.empty))) := rfl
    rw [hstep, ih _ a ha]
    by_cases hc : pyFalsy (((st.2.get? org).getD Dict.empty).get? s)
    · rw [if_pos hc]
      show (st.1.set org (((st.1.get? org).getD PSet.empty).add s)).get? a = st.1.get? a
      rw [Dict.get?_set]
      exact if_neg ha
    · rw [if_neg hc]

theorem unmappedStep_acc_mem (org : OrgId) :
    ∀ (ss : List PyStr) (st : Dict OrgId (PSet PyStr) × Dict OrgId (Dict PyStr (Option Int)))
      (s' : PyStr),
      (s' ∈ (((unmappedStep org ss st).1.get? org).getD PSet.empty).elems ↔
        s' ∈ ((st.1.get? org).getD PSet.empty).elems ∨
          (s' ∈ ss ∧ pyFalsy (lookup2 st.2 org s') = true)) := by
  intro ss
  induction ss with
  | nil => intro st s'; simp [unmappedStep]
  | cons s rest ih =>
    intro st s'
    have hstep : unmappedStep org (s :: rest) st = unmappedStep org rest
        (if pyFalsy (((st.2.get? org).getD Dict.empty).get? s) then
          (st.1.set org (((st.1.get? org).getD PSet.empty).add s),
            st.2.set org ((st.2.get? org).getD Dict.empty))
        else (st.1, st.2.set org ((st.2.get? org).getD Dict.empty))) := rfl
    have hl2 : ∀ (b : PyStr), lookup2 (st.2.set org ((st.2.get? org).getD Dict.empty)) org b
        = lookup2 st.2 org b := by
      intro b
      unfold lookup2
      rw [Dict.get?_set, if_pos rfl]
      cases hres : st.2.get? org with
      | some d => simp [hres]
      | none => simp [hres, Dict.get?_empty]
    have hfc : pyFalsy (((st.2.get? org).getD Dict.empty).get? s) = pyFalsy (lookup2 st.2 org s) :=
      pyFalsy_inner st.2 org s
    rw [hstep]
    by_cases hc : pyFalsy (((st.2.get? org).getD Dict.empty).get? s)
    · rw [if_pos hc, ih]
      dsimp only
      have hacc : (st.1.set org (((st.1.get? org).getD PSet.empty).add s)).get? org
          = some (((st.1.get? org).getD PSet.empty).add s) := by
        rw [Dict.get?_set]
        exact if_pos rfl
      rw [hacc]
      simp only [Option.getD_some]
      rw [PSet.mem_add, hl2 s']
      have hc' : pyFalsy (lookup2 st.2 org s) = true := by rw [← hfc]; exact hc
      constructor
      · rintro ((hm | rfl) | ⟨hmem, hf⟩)
        · exact Or.inl hm
        · exact Or.inr ⟨List.mem_cons_self s' rest, hc'⟩
        · exact Or.inr ⟨List.mem_cons_of_mem s hmem, hf⟩
      · rintro (hm | ⟨hmem, hf⟩)
        · exact Or.inl (Or.inl hm)
        · rw [List.mem_cons] at hmem
          rcases hmem with rfl | hmem
          · exact Or.inl (Or.inr rfl)
          · exact Or.inr ⟨hmem, hf⟩
    · rw [if_neg hc, ih]
      dsimp only
      rw [hl2 s']
      have hc' : ¬pyFalsy (lookup2 st.2 org s) = true := by rw [← hfc]; exact hc
      constructor
      · rintro (hm | ⟨hmem, hf⟩)
        · exact Or.inl hm
        · exact Or.inr ⟨List.mem_cons_of_mem s hmem, hf⟩
      · rintro (hm | ⟨hmem, hf⟩)
        · exact Or.inl hm
        · rw [List.mem_cons] at hmem
          rcases hmem with rfl | hmem
          · exact absurd hf hc'
          · exact Or.inr ⟨hmem, hf⟩


theorem unmappedFold_get? :
    ∀ (l : List (OrgId × PSet PyStr)), (l.map Prod.fst).Nodup →
      ∀ (st : Dict OrgId (PSet PyStr) × Dict OrgId (Dict PyStr (Option Int))) (a : OrgId),
        ((l.foldl (fun st kv => unmappedStep kv.1 kv.2.elems st) st).2.get? a) =
          if ((match getEntries l a with
                | some t => !t.elems.isEmpty
                | none => false) && (st.2.get? a).isNone) = true
          then some Dict.empty else st.2.get? a := by
  intro l
  induction l with
  | nil => intro _ st a; simp [getEntries]
  | cons kv rest ih =>
    intro h st a
    rw [List.map_cons, List.nodup_cons] at h
    have hfold : ((kv :: rest).foldl (fun st kv => unmappedStep kv.1 kv.2.elems st) st) =
        (rest.foldl (fun st kv => unmappedStep kv.1 kv.2.elems st)
          (unmappedStep kv.1 kv.2.elems st)) := rfl
    rw [hfold, ih h.2]
    by_cases ha : a = kv.1
    · subst ha
      have hrest : getEntries rest kv.1 = none := getEntries_eq_none.mpr h.1
      have hge : getEntries (kv :: rest) kv.1 = some kv.2 := by
        simp [getEntries]
      rw [hrest, hge, unmappedStep_get?]
      rcases hel : kv.2.elems with _ | ⟨c, t⟩
      · simp [hel]
      · cases hn : (st.2.get? kv.1).isNone <;> simp [hel, hn]
    · have hne : ¬kv.1 = a := fun g => ha g.symm
      have hge : getEntries (kv :: rest) a = getEntries rest a := by
        simp [getEntries, hne]
      have hstA : (unmappedStep kv.1 kv.2.elems st).2.get? a = st.2.get? a := by
        rw [unmappedStep_get?]
        exact if_neg (fun hcon => ha hcon.1)
      rw [hstA, hge]

theorem unmappedFold_mem :
    ∀ (l : List (OrgId × PSet PyStr)), (l.map Prod.fst).Nodup →
      ∀ (st : Dict OrgId (PSet PyStr) × Dict OrgId (Dict PyStr (Option Int)))
        (org : OrgId) (s' : PyStr),
        (s' ∈ (((l.foldl (fun st kv => unmappedStep kv.1 kv.2.elems st) st).1.get?
            org).getD PSet.empty).elems ↔
          s' ∈ ((st.1.get? org).getD PSet.empty).elems ∨
            (∃ t, getEntries l org = some t ∧ s' ∈ t.elems ∧
              pyFalsy (lookup2 st.2 org s') = true)) := by
  intro l
  induction l with
  | nil => intro _ st org s'; simp [getEntries]
  | cons kv rest ih =>
    intro h st org s'
    rw [List.map_cons, List.nodup_cons] at h
    have hfold : ((kv :: rest).foldl (fun st kv => unmappedStep kv.1 kv.2.elems st) st) =
        (rest.foldl (fun st kv => unmappedStep kv.1 kv.2.elems st)
          (unmappedStep kv.1 kv.2.elems st)) := rfl
    rw [hfold, ih h.2]
    have hl2 : ∀ b, lookup2 (unmappedStep kv.1 kv.2.elems st).2 org b = lookup2 st.2 org b :=
      fun b => unmappedStep_lookup2 kv.1 kv.2.elems st org b
    by_cases ho : org = kv.1
    · subst ho
      have hrest : getEntries rest kv.1 = none := getEntries_eq_none.mpr h.1
      have hge : getEntries (kv :: rest) kv.1 = some kv.2 := by
        simp [getEntries]
      rw [hrest, hge, unmappedStep_acc_mem kv.1 kv.2.elems st s']
      rw [hl2 s']
      constructor
      · rintro ((hm | ⟨hmem, hf⟩) | ⟨t, ht, _⟩)
        · exact Or.inl hm
        · exact Or.inr ⟨kv.2, rfl, hmem, hf⟩
        · exact absurd ht (by simp)
      · rintro (hm | ⟨t, ht, hmem, hf⟩)
        · exact Or.inl (Or.inl hm)
        · have ht' : t = kv.2 := (Option.some_injective _ ht.symm)
          subst ht'
          exact Or.inl (Or.inr ⟨hmem, hf⟩)
    · have hne : ¬kv.1 = org := fun g => ho g.symm
      have hge : getEntries (kv :: rest) org = getEntries rest org := by
        simp [getEntries, hne]
      have hacc : (unmappedStep kv.1 kv.2.elems st).1.get? org = st.1.get? org :=
        unmappedStep_acc_ne kv.1 kv.2.elems st org ho
      rw [hacc, hge]
      constructor
      · rintro (hm | ⟨t, ht, hmem, hf⟩)
        · exact Or.inl hm
        · exact Or.inr ⟨t, ht, hmem, by rw [← hl2 s']; exact hf⟩
      · rintro (hm | ⟨t, ht, hmem, hf⟩)
        · exact Or.inl hm
        · exact Or.inr ⟨t, ht, hmem, by rw [hl2 s']; exact hf⟩


theorem mem_getD_iff (o : Option (PSet PyStr)) (s : PyStr) :
    s ∈ (o.getD PSet.empty).elems ↔ ∃ t, o = some t ∧ s ∈ t.elems := by
  cases o <;> simp [PSet.empty]

theorem foldl_filterMap {α β γ : Type} (f : α → Option β) (g : γ → β → γ) :
    ∀ (l : List α) (init : γ),
      (l.filterMap f).foldl g init =
        l.foldl (fun acc x => match f x with | some y => g acc y | none => acc) init := by
  intro l
  induction l with
  | nil => intro init; rfl
  | cons x xs ih =>
    intro init
    cases h : f x <;> simp [List.filterMap_cons, h, ih]

theorem foldl_flatMap {α β γ : Type} (f : α → List β) (g : γ → β → γ) :
    ∀ (l : List α) (init : γ),
      (l.flatMap f).foldl g init = l.foldl (fun acc x => (f x).foldl g acc) init := by
  intro l
  induction l with
  | nil => intro init; rfl
  | cons x xs ih => intro init; simp [List.foldl_append, ih]

theorem filterMap_guard_sublist {α β : Type} (f : α → Option β) (h : α → β)
    (hf : ∀ x y, f x = some y → y = h x) :
    ∀ (l : List α), (l.filterMap f).Sublist (l.map h) := by
  intro l
  induction l with
  | nil => exact List.Sublist.refl []
  | cons x xs ih =>
    rw [List.filterMap_cons, List.map_cons]
    cases hx : f x with
    | none => exact ih.cons (h x)
    | some y =>
      rw [hf x y hx]
      exact ih.cons₂ (h x)

theorem renderKey_inj {org org' : Int} {s s' : PyStr}
    (h : renderKey org s = renderKey org' s') : org = org' ∧ s = s' := by
  have h1 := splitOnceColon_renderKey org s
  rw [h, splitOnceColon_renderKey org' s'] at h1
  have h2 : (pyIntRepr org', s') = (pyIntRepr org, s) := Option.some_injective _ h1
  have hL : pyIntRepr org' = pyIntRepr org := congrArg Prod.fst h2
  have hR : s' = s := congrArg Prod.snd h2
  have ho : some org' = some org := by
    rw [← pyParseInt_pyIntRepr org', ← pyParseInt_pyIntRepr org, hL]
  exact ⟨(Option.some_injective _ ho).symm, hR.symm⟩

/-! ### Lemmas about the flat cache-key exports -/

theorem flat_eq_writes (r : KeyResults) :
    r.get_mapped_key_strings_to_ints =
      (writesList r).foldl (fun acc p => acc.set p.1 p.2) Dict.empty := by
  unfold KeyResults.get_mapped_key_strings_to_ints writesList
  rw [foldl_flatMap]
  apply (List.foldl_ext _ _ _ _).symm
  intro acc kv hkv
  rw [foldl_filterMap]
  apply List.foldl_ext
  intro acc2 sv hsv
  cases h2 : sv.2 <;> simp [h2]

theorem flat_get? (r : KeyResults) (k : PyStr) :
    r.get_mapped_key_strings_to_ints.get? k = lastWrite (writesList r) k := by
  rw [flat_eq_writes, foldl_set_get?]
  rw [Dict.get?_empty, Option.or_none]

theorem writesList_keys_nodup (r : KeyResults) : ((writesList r).map Prod.fst).Nodup := by
  unfold writesList
  rw [List.map_flatMap]
  rw [List.nodup_flatMap]
  constructor
  · intro kv hkv
    rw [List.map_filterMap]
    have hsub := filterMap_guard_sublist
      (fun sv : PyStr × Option Int =>
        ((sv.2.map (fun i => (renderKey kv.1 sv.1, i))).map Prod.fst))
      (fun sv => renderKey kv.1 sv.1)
      (by
        intro sv y hy
        dsimp only at hy
        cases h2 : sv.2 with
        | none => rw [h2] at hy; simp at hy
        | some j =>
          rw [h2] at hy
          simp at hy
          exact hy.symm)
      kv.2.entries
    refine hsub.nodup ?_
    have hinj : Function.Injective (fun s : PyStr => renderKey kv.1 s) := by
      intro x y hxy
      exact (renderKey_inj hxy).2
    have : (kv.2.entries.map (fun sv => renderKey kv.1 sv.1)) =
        ((kv.2.entries.map Prod.fst).map (fun s => renderKey kv.1 s)) := by
      rw [List.map_map]
      rfl
    rw [this]
    exact List.Nodup.map hinj kv.2.nodup
  · have hpw : r.results.entries.Pairwise (fun e e' => e.1 ≠ e'.1) :=
      List.pairwise_map.mp r.results.nodup
    refine hpw.imp ?_
    intro e e' hne x hx hx'
    dsimp only at hx hx'
    rw [List.map_filterMap, List.mem_filterMap] at hx hx'
    obtain ⟨sv, hsv, hf⟩ := hx
    obtain ⟨sv', hsv', hf'⟩ := hx'
    cases h2 : sv.2 with
    | none => rw [h2] at hf; simp at hf
    | some j =>
      cases h2' : sv'.2 with
      | none => rw [h2'] at hf'; simp at hf'
      | some j' =>
        rw [h2] at hf
        rw [h2'] at hf'
        simp at hf hf'
        exact hne ((renderKey_inj (hf.trans hf'.symm)).1)

theorem mem_writesList (r : KeyResults) (k : PyStr) (i : Int) :
    (k, i) ∈ writesList r ↔
      ∃ org s, k = renderKey org s ∧ lookup2 r.results org s = some (some i) := by
  unfold writesList
  rw [List.mem_flatMap]
  constructor
  · rintro ⟨kv, hkv, hmem⟩
    rw [List.mem_filterMap] at hmem
    obtain ⟨sv, hsv, hf⟩ := hmem
    cases h2 : sv.2 with
    | none => rw [h2] at hf; simp at hf
    | some j =>
      rw [h2] at hf
      simp at hf
      obtain ⟨hk, hj⟩ := hf
      refine ⟨kv.1, sv.1, hk.symm, ?_⟩
      unfold lookup2
      have hres : r.results.get? kv.1 = some kv.2 :=
        (Dict.get?_eq_some_iff r.results kv.1 kv.2).mpr hkv
      rw [hres]
      show kv.2.get? sv.1 = some (some i)
      have hd : kv.2.get? sv.1 = some sv.2 :=
        (Dict.get?_eq_some_iff kv.2 sv.1 sv.2).mpr hsv
      rw [hd, h2, hj]
  · rintro ⟨org, s, hk, hl⟩
    unfold lookup2 at hl
    cases hres : r.results.get? org with
    | none => rw [hres] at hl; simp at hl
    | some d =>
      rw [hres] at hl
      have hd : d.get? s = some (some i) := hl
      refine ⟨(org, d), (Dict.get?_eq_some_iff r.results org d).mp hres, ?_⟩
      rw [List.mem_filterMap]
      refine ⟨(s, some i), (Dict.get?_eq_some_iff d s (some i)).mp hd, ?_⟩
      simp [hk]

theorem ucflat_eq_writes (u : UseCaseKeyResults) :
    u.get_mapped_strings_to_ints =
      (ucWritesList u).foldl (fun acc p => acc.set p.1 p.2) Dict.empty := by
  unfold UseCaseKeyResults.get_mapped_strings_to_ints ucWritesList
  rw [foldl_flatMap]
  apply (List.foldl_ext _ _ _ _).symm
  intro acc ukv hukv
  rw [List.foldl_map]

theorem lookup2_set_set {K K' V : Type} [DecidableEq K] [DecidableEq K']
    (d : Dict K (Dict K' V)) (k : K) (k' : K') (v : V) (a : K) (b : K') :
    lookup2 (d.set k (((d.get? k).getD Dict.empty).set k' v)) a b =
      if a = k ∧ b = k' then some v else lookup2 d a b := by
  unfold lookup2
  rw [Dict.get?_set]
  by_cases ha : a = k
  · rw [if_pos ha]
    show (((d.get? k).getD Dict.empty).set k' v).get? b = _
    rw [Dict.get?_set]
    by_cases hb : b = k'
    · rw [if_pos hb, if_pos ⟨ha, hb⟩]
    · rw [if_neg hb, if_neg (fun hc => hb hc.2)]
      subst ha
      cases h : d.get? a with
      | some inner => simp [h]
      | none => simp [h, Dict.get?_empty]
  · rw [if_neg ha, if_neg (fun hc => ha hc.1)]

/-! ### Claim theorems -/

/-- C1: the claim says `UseCaseKeyResult.from_string(key, id)` parses a
well-formed `"{use_case_id}:{org_id}:{string}"` key via two colon splits
and raises only on a missing delimiter or non-integer org segment.  The
code instead unpacks `key.split(":", 1)` — which yields at most two
parts — into three names, so the call raises `ValueError` on every
input, including every well-formed key: the model returns `none`
unconditionally. -/
theorem claim_C1_use_case_from_string_always_raises (key : PyStr) (id : Int) :
    UseCaseKeyResult.from_string key id = none := by
  unfold UseCaseKeyResult.from_string pySplitMax1
  cases h : splitOnceColon key <;> rfl

/-- C2: in `A.merge B` (stage A before stage B), the merged id for any
key is A's when A has one (self wins, because `other.results` is
written first and `self.results` last), falling back to B's; the merged
metadata is B's when B has one (other wins, because `self.meta` is
written first and `other.meta` last), falling back to A's.  Keys present
on only one side are therefore passed through unchanged. -/
theorem claim_C2_merge_asymmetry (A B : KeyResults) (org : OrgId) (s : PyStr) :
    lookup2 (A.merge B).results org s =
      (lookup2 A.results org s).or (lookup2 B.results org s) ∧
    lookup2 (A.merge B).meta org s =
      (lookup2 B.meta org s).or (lookup2 A.meta org s) := by
  constructor
  · show lookup2 (mergeWrites (B.results.entries ++ A.results.entries) Dict.empty) org s = _
    rw [mergeWrites_lookup2, listLook_append, listLook_dict, listLook_dict]
    rw [show lookup2 (Dict.empty : Dict OrgId (Dict PyStr (Option Int))) org s = none from rfl]
    rw [Option.or_none]
  · show lookup2 (mergeWrites (A.meta.entries ++ B.meta.entries) Dict.empty) org s = _
    rw [mergeWrites_lookup2, listLook_append, listLook_dict, listLook_dict]
    rw [show lookup2 (Dict.empty : Dict OrgId (Dict PyStr Metadata)) org s = none from rfl]
    rw [Option.or_none]

/-- C3: a key `(org, s)` of the collection `C` appears in
`R.get_unmapped_keys(C)` if and only if it is a key of `C` and
`R.results[org].get(s)` is falsy — absent, recorded as `None`, or
recorded as `0`. -/
theorem claim_C3_get_unmapped_keys_complement (R : KeyResults) (C : KeyCollection)
    (org : OrgId) (s : PyStr) :
    collMem (R.get_unmapped_keys C).1 org s ↔
      collMem C org s ∧ pyFalsy (lookup2 R.results org s) = true := by
  unfold collMem
  rw [← mem_getD_iff]
  show s ∈ ((((C.mapping.entries.foldl (fun st kv => unmappedStep kv.1 kv.2.elems st)
      (Dict.empty, R.results)).1).get? org).getD PSet.empty).elems ↔ _
  rw [unmappedFold_mem C.mapping.entries C.mapping.nodup (Dict.empty, R.results) org s]
  rw [show ((Dict.empty : Dict OrgId (PSet PyStr)).get? org) = none from rfl]
  constructor
  · rintro (hm | ⟨t, ht, hmem, hf⟩)
    · simp [PSet.empty] at hm
    · exact ⟨⟨t, ht, hmem⟩, hf⟩
  · rintro ⟨⟨t, ht, hmem⟩, hf⟩
    exact Or.inr ⟨t, ht, hmem, hf⟩

/-- C4: `get_mapped_results()` keeps exactly the org entries whose
sub-mapping is non-empty, unchanged; in particular it never returns an
org entry with an empty sub-mapping. -/
theorem claim_C4_get_mapped_results_nonempty (R : KeyResults) (org : OrgId) :
    R.get_mapped_results.get? org =
      match R.results.get? org with
      | some d => if 0 < d.entries.length then some d else none
      | none => none := by
  show (Dict.filter _ R.results).get? org = _
  rw [Dict.get?_filter]
  cases hres : R.results.get? org with
  | some d => simp
  | none => rfl

/-- C5: `UseCaseKeyResults.merge` is the union on use-case keys: a use
case present in both sides maps to the `KeyResults.merge` of the two,
one present on a single side is passed through unchanged, and one
present on neither side is absent. -/
theorem claim_C5_use_case_merge_union (A B : UseCaseKeyResults) (uc : UseCaseId) :
    (A.merge B).results.get? uc =
      match A.results.get? uc, B.results.get? uc with
      | some a, some b => some (a.merge b)
      | some a, none => some a
      | none, some b => some b
      | none, none => none := by
  unfold UseCaseKeyResults.merge
  dsimp only
  rw [Dict.get?_ofKeysFn]
  cases ha : A.results.get? uc with
  | some a =>
    have hmemA : uc ∈ A.results.keys := (Dict.mem_keys_iff A.results uc).mpr (by rw [ha]; rfl)
    have hmem : uc ∈ A.results.keys ++ B.results.keys.filter
        (fun k => !(A.results.keys.contains k)) := List.mem_append.mpr (Or.inl hmemA)
    rw [if_pos hmem]
    cases hb : B.results.get? uc with
    | some b => simp [mergeUseCase, ha, hb]
    | none => simp [mergeUseCase, ha, hb]
  | none =>
    have hmemA : uc ∉ A.results.keys := by
      rw [Dict.mem_keys_iff, ha]
      simp
    cases hb : B.results.get? uc with
    | some b =>
      have hmemB : uc ∈ B.results.keys := (Dict.mem_keys_iff B.results uc).mpr (by rw [hb]; rfl)
      have hmem : uc ∈ A.results.keys ++ B.results.keys.filter
          (fun k => !(A.results.keys.contains k)) := by
        refine List.mem_append.mpr (Or.inr ?_)
        rw [List.mem_filter]
        refine ⟨hmemB, ?_⟩
        simp [hmemA]
      rw [if_pos hmem]
      simp [mergeUseCase, ha, hb]
    | none =>
      have hmemB : uc ∉ B.results.keys := by
        rw [Dict.mem_keys_iff, hb]
        simp
      have hmem : uc ∉ A.results.keys ++ B.results.keys.filter
          (fun k => !(A.results.keys.contains k)) := by
        rw [List.mem_append]
        push_neg
        refine ⟨hmemA, ?_⟩
        intro hc
        exact hmemB (List.mem_filter.mp hc).1
      rw [if_neg hmem]

/-- C6: `add_key_result` with a null `fetch_type` leaves `meta` entirely
unchanged and updates exactly the `(org_id, string)` entry of `results`;
with a non-null `fetch_type` it also overwrites the `Metadata` at that
key.  The pointwise if-characterisation makes later calls win on
repeated writes. -/
theorem claim_C6_add_key_result_frame (R : KeyResults) (kr : KeyResult)
    (fte : Option FetchTypeExt) :
    ((R.add_key_result kr none fte).meta = R.meta) ∧
    (∀ (oft : Option FetchType) (org : OrgId) (s : PyStr),
      lookup2 (R.add_key_result kr oft fte).results org s =
        if org = kr.org_id ∧ s = kr.string then some kr.id
        else lookup2 R.results org s) ∧
    (∀ (ft : FetchType) (org : OrgId) (s : PyStr),
      lookup2 (R.add_key_result kr (some ft) fte).meta org s =
        if org = kr.org_id ∧ s = kr.string then some ⟨kr.id, ft, fte⟩
        else lookup2 R.meta org s) := by
  refine ⟨rfl, ?_, ?_⟩
  · intro oft org s
    cases oft with
    | none =>
      show lookup2 (R.results.set kr.org_id
        (((R.results.get? kr.org_id).getD Dict.empty).set kr.string kr.id)) org s = _
      exact lookup2_set_set R.results kr.org_id kr.string kr.id org s
    | some ft =>
      show lookup2 (R.results.set kr.org_id
        (((R.results.get? kr.org_id).getD Dict.empty).set kr.string kr.id)) org s = _
      exact lookup2_set_set R.results kr.org_id kr.string kr.id org s
  · intro ft org s
    show lookup2 (R.meta.set kr.org_id
      (((R.meta.get? kr.org_id).getD Dict.empty).set kr.string ⟨kr.id, ft, fte⟩)) org s = _
    exact lookup2_set_set R.meta kr.org_id kr.string ⟨kr.id, ft, fte⟩ org s

/-- C7: `get_mapped_key_strings_to_ints()` maps `"{org_id}:{string}"` to
`i` exactly when `results[org_id][string] = i ≠ None`; every entry of
the use-case variant `get_mapped_strings_to_ints()` has key
`"{use_case_id}:{org_id}:{string}"` and carries the id that use case
resolved for that key. -/
theorem claim_C7_flat_export (R : KeyResults) (U : UseCaseKeyResults) (k : PyStr) (i : Int) :
    (R.get_mapped_key_strings_to_ints.get? k = some i ↔
      ∃ org s, k = renderKey org s ∧ lookup2 R.results org s = some (some i)) ∧
    (U.get_mapped_strings_to_ints.get? k = none ∨
      ∃ uc org s j, k = uc ++ ':' :: renderKey org s ∧
        U.get_mapped_strings_to_ints.get? k = some j ∧
        ∃ kr, U.results.get? uc = some kr ∧ lookup2 kr.results org s = some (some j)) := by
  constructor
  · rw [flat_get?, lastWrite_nodup (writesList_keys_nodup R)]
    rw [getEntries_eq_some_iff (writesList_keys_nodup R)]
    exact mem_writesList R k i
  · cases hv : U.get_mapped_strings_to_ints.get? k with
    | none => exact Or.inl rfl
    | some j =>
      right
      have hlw : lastWrite (ucWritesList U) k = some j := by
        rw [← hv, ucflat_eq_writes, foldl_set_get?, Dict.get?_empty, Option.or_none]
      have hmem := lastWrite_mem hlw
      unfold ucWritesList at hmem
      rw [List.mem_flatMap] at hmem
      obtain ⟨ukv, hukv, hm⟩ := hmem
      rw [List.mem_map] at hm
      obtain ⟨kv, hkv, heq⟩ := hm
      have hk : ukv.1 ++ ':' :: kv.1 = k := congrArg Prod.fst heq
      have hj : kv.2 = j := congrArg Prod.snd heq
      have hfg : ukv.2.get_mapped_key_strings_to_ints.get? kv.1 = some kv.2 :=
        (Dict.get?_eq_some_iff _ kv.1 kv.2).mpr hkv
      rw [flat_get?, lastWrite_nodup (writesList_keys_nodup ukv.2),
        getEntries_eq_some_iff (writesList_keys_nodup ukv.2)] at hfg
      obtain ⟨org, s, hks, hl⟩ := (mem_writesList ukv.2 kv.1 kv.2).mp hfg
      refine ⟨ukv.1, org, s, j, ?_, rfl, ukv.2, (Dict.get?_eq_some_iff _ _ _).mpr hukv, ?_⟩
      · rw [← hk, hks]
      · rw [hj] at hl
        exact hl

/-- C8: for a `KeyCollection` built from mapping `m`, the precomputed
`size` is the sum of the per-org set sizes (an org with an empty set
contributes zero and nothing raises), and `as_tuples()` yields exactly
`size` distinct `(org_id, string)` pairs — precisely the keys of `m`. -/
theorem claim_C8_key_collection_size (m : Dict OrgId (PSet PyStr)) :
    (KeyCollection.ofMapping m).size = (m.entries.map (fun kv => kv.2.elems.length)).sum ∧
    (KeyCollection.ofMapping m).as_tuples.length = (KeyCollection.ofMapping m).size ∧
    (KeyCollection.ofMapping m).as_tuples.Nodup ∧
    (∀ (org : OrgId) (s : PyStr),
      ((org, s) ∈ (KeyCollection.ofMapping m).as_tuples ↔
        ∃ t, m.get? org = some t ∧ s ∈ t.elems)) := by
  have hsize : (KeyCollection.ofMapping m).size
      = (m.entries.map (fun kv => kv.2.elems.length)).sum := by
    show m.entries.foldl (fun total_size kv => total_size + kv.2.elems.length) 0 = _
    rw [List.sum_eq_foldl, List.foldl_map]
  refine ⟨hsize, ?_, ?_, ?_⟩
  · show (m.entries.flatMap (fun kv => kv.2.elems.map (fun s => (kv.1, s)))).length = _
    rw [List.length_flatMap, hsize]
    have hcomp : (List.length ∘ (fun kv : OrgId × PSet PyStr =>
        kv.2.elems.map (fun s => (kv.1, s)))) = (fun kv => kv.2.elems.length) := by
      funext kv
      exact List.length_map _ _
    rw [hcomp]
  · show (m.entries.flatMap (fun kv => kv.2.elems.map (fun s => (kv.1, s)))).Nodup
    rw [List.nodup_flatMap]
    constructor
    · intro kv hkv
      refine List.Nodup.map ?_ kv.2.nodup
      intro x y hxy
      exact congrArg Prod.snd hxy
    · have hpw : m.entries.Pairwise (fun e e' => e.1 ≠ e'.1) :=
        List.pairwise_map.mp m.nodup
      refine hpw.imp ?_
      intro e e' hne x hx hx'
      simp only [List.mem_map] at hx hx'
      obtain ⟨s1, hs1, hfx⟩ := hx
      obtain ⟨s2, hs2, hfx'⟩ := hx'
      exact hne ((congrArg Prod.fst hfx).trans (congrArg Prod.fst hfx').symm)
  · intro org s
    show ((org, s) ∈ m.entries.flatMap (fun kv => kv.2.elems.map (fun t => (kv.1, t)))) ↔ _
    rw [List.mem_flatMap]
    constructor
    · rintro ⟨kv, hkv, hm⟩
      simp only [List.mem_map] at hm
      obtain ⟨s0, hs0, heq⟩ := hm
      have h1 : kv.1 = org := congrArg Prod.fst heq
      have h2 : s0 = s := congrArg Prod.snd heq
      refine ⟨kv.2, ?_, h2 ▸ hs0⟩
      rw [← h1]
      exact (Dict.get?_eq_some_iff m kv.1 kv.2).mpr hkv
    · rintro ⟨t, ht, hs⟩
      refine ⟨(org, t), (Dict.get?_eq_some_iff m org t).mp ht, ?_⟩
      simp only [List.mem_map]
      exact ⟨s, hs, rfl⟩

/-- C9: rendering a key as `f"{org}:{s}"` and parsing it back with
`KeyResult.from_string` round-trips to `KeyResult(org, s, id)`, for
every integer `org` and every string `s` (the split takes the first
colon only, so `s` may itself contain colons). -/
theorem claim_C9_from_string_round_trip (org : Int) (s : PyStr) (id : Int) :
    KeyResult.from_string (renderKey org s) id = some ⟨org, s, some id⟩ := by
  unfold KeyResult.from_string pySplitMax1
  rw [splitOnceColon_renderKey]
  show (pyParseInt (pyIntRepr org)).map
      (fun o => ({ org_id := o, string := s, id := some id } : KeyResult))
    = some { org_id := org, string := s, id := some id }
  rw [pyParseInt_pyIntRepr]
  rfl

/-- C10 (amended): `get_unmapped_keys` does mutate its receiver, but
only for org_ids that the input collection maps to a *non-empty* string
set: when such an org was absent from `results`, an empty sub-mapping is
inserted (defaultdict auto-vivification); an org mapped to an empty set
is never indexed, so nothing is inserted for it.  No recorded
`(org, string) -> id` entry and no metadata changes. -/
theorem claim_C10_amended_vivification (R : KeyResults) (C : KeyCollection)
    (a : OrgId) (b : PyStr) :
    ((R.get_unmapped_keys C).2.meta = R.meta) ∧
    ((R.get_unmapped_keys C).2.results.get? a =
      if (vivifyFlag C.mapping a && (R.results.get? a).isNone) = true
      then some Dict.empty else R.results.get? a) ∧
    (lookup2 (R.get_unmapped_keys C).2.results a b = lookup2 R.results a b) := by
  have hmain : (R.get_unmapped_keys C).2.results.get? a =
      if (vivifyFlag C.mapping a && (R.results.get? a).isNone) = true
      then some Dict.empty else R.results.get? a := by
    show ((C.mapping.entries.foldl (fun st kv => unmappedStep kv.1 kv.2.elems st)
        (Dict.empty, R.results)).2.get? a) = _
    rw [unmappedFold_get? C.mapping.entries C.mapping.nodup (Dict.empty, R.results) a]
    rfl
  refine ⟨rfl, hmain, ?_⟩
  unfold lookup2
  rw [hmain]
  by_cases hc : (vivifyFlag C.mapping a && (R.results.get? a).isNone) = true
  · rw [if_pos hc]
    have hn : (R.results.get? a).isNone = true := (Bool.and_eq_true _ _ ▸ hc).2
    cases hres : R.results.get? a with
    | some d => rw [hres] at hn; simp at hn
    | none => simp [Dict.get?_empty]
  · rw [if_neg hc]

/-- C10 (counterexample): the original claim promises an inserted empty
sub-mapping for *every* org_id occurring in the input collection that
was absent from `results`; with the collection `{1: set()}` and a fresh
`KeyResults`, org 1 occurs in the collection and is absent from
`results`, yet after the call `results` still has no entry for org 1
(the empty string set means the defaultdict is never indexed). -/
theorem claim_C10_counterexample :
    ((KeyCollection.ofMapping
        ((Dict.empty : Dict OrgId (PSet PyStr)).set 1 PSet.empty)).mapping.get?
          1).isSome = true ∧
    (KeyResults.empty.results.get? 1).isNone = true ∧
    ((KeyResults.empty.get_unmapped_keys
        (KeyCollection.ofMapping
          ((Dict.empty : Dict OrgId (PSet PyStr)).set 1 PSet.empty))).2.results.get?
            1).isNone = true := by
  refine ⟨rfl, rfl, rfl⟩

end Indexer
